import Mathlib

/-!
Verification of the ocetrac labeling-and-tracking pipeline
(`src/ocetrac/tracker.py`) against its natural-language specification.

The pipeline's array operations are shallowly embedded over plain lists
and functions:

* a 2-D frame (one time slice, indexed (y, x)) is a `List (List Nat)`;
* a 3-D label/presence volume (time, y, x) is a `List (List (List Nat))`;
* fallible constructor/stage code returns `Except String _`;
* floating-point field values are modelled as `FloatV` (either NaN or a
  rational), with IEEE comparison semantics: every comparison with NaN
  is false;
* external labeling primitives (skimage.measure.label) are modelled
  denotationally as connected-component labeling over the documented
  default adjacency used at the call site.

All definitions are translated from the source; doc comments name the
source lines each embeds.
-/

/-! ### Binarizer (Tracker._morphological_operations, lines 142-149)

The field values are floats; the only aspect of floating point the
binarization depends on is the outcome of `value > 0` / `value < 0`
comparisons, which are false when the value is NaN.  `FloatV` models a
float as NaN or a rational, with exactly those comparison semantics. -/

inductive FloatV where
  | nan : FloatV
  | fin : ℚ → FloatV
deriving DecidableEq

/-- IEEE semantics of `v > 0`: false for NaN. -/

def FloatV.gtZero : FloatV → Bool
  | .nan => false
  | .fin q => decide (0 < q)

/-- IEEE semantics of `v < 0`: false for NaN. -/

def FloatV.ltZero : FloatV → Bool
  | .nan => false
  | .fin q => decide (q < 0)

/-- Lines 142-149 of tracker.py: `da.where(da>0, other=0)` (resp. `da<0`
for `positive=False`) followed by `where(bitmap==0, other=1)`.
A cell where the sign condition fails (including every NaN cell, since
comparisons with NaN are false) is replaced by 0; surviving non-zero
cells become 1. -/

def binarize (positive : Bool) (v : FloatV) : ℕ :=
  let kept : FloatV :=
    if positive then (if v.gtZero then v else .fin 0)
    else (if v.ltZero then v else .fin 0)
  if kept = .fin 0 then 0 else 1

/-! ### Constructor dimension handling (Tracker.__init__, lines 14-31)

`self.da = da` is executed first (line 18).  The dimension check at
line 27 then computes `da.transpose(timedim, ydim, xdim)` into the
*local* variable `da` (line 29); the stored `self.da` is never updated.
`transpose` succeeds exactly when the argument names are a permutation
of the array's dimensions, and the `except` branch raises `ValueError`
otherwise.  The embedding returns the dimension order of the *stored*
field on success. -/

/-- The `ValueError` message of line 31 (the f-string interpolates the
dimension names and the found dimensions). -/

def dimsErrorMsg (t y x : String) (dims : List String) : String :=
  "Ocetrac currently only supports 3D DataArrays. The dimensions should only contain ("
    ++ t ++ ", " ++ x ++ ", and " ++ y ++ "). Found " ++ String.intercalate ", " dims

/-- Lines 14-31 of tracker.py, restricted to the dimension-order state:
given the dimension names of `da` and the configured `timedim`, `ydim`,
`xdim`, returns the dimension order of the stored `self.da` (which the
constructor never reassigns — the transposed array is bound to the local
`da` and discarded), or the `ValueError` when the dimension set is wrong
(i.e. `transpose` fails because `dims` is not a permutation of the three
names). -/

def trackerInitDims (dims : List String) (t y x : String) : Except String (List String) :=
  if dims = [t, y, x] then Except.ok dims
  else if dims.Perm [t, y, x] then Except.ok dims
  else Except.error (dimsErrorMsg t y x dims)

/-! ### Frames and volumes -/

/-- One time slice: rows indexed by y, entries indexed by x. -/

abbrev Frame := List (List ℕ)

/-- A (time, y, x) volume of labels / presence values. -/

abbrev Volume := List Frame

/-- Cell (i, j) of a frame; out-of-range reads give 0 (labels are
non-negative, and every theorem that depends on a cell value guards it
with positivity or explicit bounds). -/

def cellAt (f : Frame) (i j : ℕ) : ℕ := (f.getD i []).getD j 0

/-- Cell (t, i, j) of a volume. -/

def cellAt3 (V : Volume) (t i j : ℕ) : ℕ := cellAt (V.getD t []) i j

/-- All values of a frame, row-major. -/

def frameVals (f : Frame) : List ℕ := f.flatten

/-- All values of a volume, in (time, y, x) raster order. -/

def volVals (V : Volume) : List ℕ := (V.map frameVals).flatten

/-- Elementwise map over a volume. -/

def mapVol (φ : ℕ → ℕ) (V : Volume) : Volume :=
  V.map (fun f => f.map (fun row => row.map φ))

/-- Height (number of rows) of a frame. -/

def height (f : Frame) : ℕ := f.length

/-- Width of a (rectangular) frame, read off its first row — the numpy
arrays the source manipulates are rectangular. -/

def width (f : Frame) : ℕ := (f.headD []).length

/-- A rectangular frame built from a cell formula. -/

def buildFrame (H W : ℕ) (g : ℕ → ℕ → ℕ) : Frame :=
  (List.range H).map (fun i => (List.range W).map (fun j => g i j))

/-! ### Frame Labeler offsets (Tracker._filter_area, lines 192-199)

After per-frame labeling, line 192 masks non-positive cells to NaN,
line 196 takes the per-frame maximum (NaN for an all-empty frame) and
its cumulative sum along time (`cumsum` skips NaN, i.e. an empty frame
contributes 0), line 197 shifts the cumulative sums one frame forward
(fill 0, so frame 0 is unshifted) and adds them, and line 199 replaces
the NaN background by 0 again.  In the embedding labels are naturals,
background 0, and the NaN bookkeeping collapses to: each positive cell
of frame `t` gains the sum of the per-frame maxima of frames `0..t-1`,
where an empty frame has maximum 0. -/

/-- Per-frame maximum label (0 for an entirely empty frame, matching the
NaN-skipping cumulative sum of line 196). -/

def frameMax (f : Frame) : ℕ := (frameVals f).foldr max 0

/-- Line 196-197: the additive offset received by frame `t`, i.e. the
cumulative sum of the maxima of all strictly earlier frames. -/

def offsetAt (V : Volume) (t : ℕ) : ℕ := ((V.take t).map frameMax).sum

/-- Lines 192-199 as one cell-level function: the value of cell
(t, i, j) after the collision-avoiding shift. -/

def shiftedCell (V : Volume) (t i j : ℕ) : ℕ :=
  if 0 < cellAt3 V t i j then cellAt3 V t i j + offsetAt V t else 0

/-! ### Periodic Label Unifier (Tracker._wrap, lines 244-305)

`wrap_x` (lines 250-266) receives one 2-D frame (apply_ufunc with core
dims (y, x), vectorize=True, so even when `_wrap` is applied to the
3-D-labeled volume each time slice is processed separately).  It takes
a working copy of the frame, iterates over `np.unique` (ascending) of
the positive values of the first x-column, and for each such value `v`
computes the positive last-column values at the rows where the first
column equals `v` (`bad_labels`); `np.isin(labels, bad_labels)` tests
the *original* frame (snapshot reads) and the matching cells of the
*copy* are overwritten with `v` (writes to the working copy). -/

/-- Values of the first x-column, `labels[:, 0]` (line 252). -/

def firstColVals (f : Frame) : List ℕ :=
  (List.range (height f)).map (fun i => cellAt f i 0)

/-- Line 254: `np.unique(first_column[first_column > 0])` — the sorted
distinct positive first-column values, in the ascending order the
`for value in unique_first` loop visits them. -/

def uniqueFirst (f : Frame) : List ℕ :=
  (((firstColVals f).filter (fun v => decide (0 < v))).dedup).insertionSort (· ≤ ·)

/-- Lines 257-259: the positive last-column values (`labels[:, -1]`)
at the rows where the first column holds `v`. -/

def badList (f : Frame) (v : ℕ) : List ℕ :=
  ((((List.range (height f)).filter (fun i => decide (cellAt f i 0 = v))).map
    (fun i => cellAt f i (width f - 1))).filter (fun w => decide (0 < w)))

/-- Lines 260-264 for one loop iteration: every cell whose value in the
original frame `f` (the snapshot `np.isin` reads) lies in `bad_labels`
is overwritten with `v` in the working copy `cur`. -/

def rewriteStep (f : Frame) (cur : Frame) (v : ℕ) : Frame :=
  buildFrame (height f) (width f)
    (fun i j => if cellAt f i j ∈ badList f v then v else cellAt cur i j)

/-- Lines 250-266: the whole per-frame wrap pass, folding the rewrite
over the ascending positive first-column values, starting from the
working copy of the input. -/

def wrap_x (f : Frame) : Frame := (uniqueFirst f).foldl (rewriteStep f) f

/-- The first stage of `_wrap` (lines 269-274): `wrap_x` vectorized
over time. -/

def wrapFrames (V : Volume) : Volume := V.map wrap_x

/-- The sorted distinct values present anywhere in the volume,
`dsa.unique(labels_dask)` of line 280. -/

def sortedVals (V : Volume) : List ℕ :=
  ((volVals V).dedup).insertionSort (· ≤ ·)

/-- Line 284: `np.searchsorted(unique_values, block)` — the left
insertion index of `x` in the sorted unique values, i.e. the number of
distinct values smaller than `x`. -/

def searchsortedRank (V : Volume) (x : ℕ) : ℕ :=
  ((sortedVals V).filter (fun u => decide (u < x))).length

/-- Lines 276-295 (`inverse_unique`): every cell is replaced by its
rank among the sorted distinct values of the whole volume. -/

def inverse_unique (V : Volume) : Volume := mapVol (searchsortedRank V) V

/-- Maximum cell value of a volume (`labels_wrapped_unique.max()` of
line 303; also `np.max(labels)` of line 92). -/

def volMax (V : Volume) : ℕ := (volVals V).foldr max 0

/-- Lines 244-305 (`Tracker._wrap`): per-frame wrap pass, then the
dense relabeling, returning the relabeled volume and its maximum. -/

def wrapUnify (V : Volume) : Volume × ℕ :=
  let u := inverse_unique (wrapFrames V)
  (u, volMax u)

/-- Number of distinct non-zero values present in a volume. -/

def distinctNonzeroCount (V : Volume) : ℕ :=
  (((volVals V).dedup).filter (fun v => decide (0 < v))).length

/-! ### The conditional final wrap in track() (lines 86-92) -/

/-- Line 87: `grid_res = abs(da[xdim][1] - da[xdim][0])`. -/

def gridRes (xs : List ℚ) : ℚ := |xs.getD 1 0 - xs.getD 0 0|

/-- Line 88: the test `da[xdim][-1] - da[xdim][0] >= 360 - grid_res`
deciding whether the track-stage labels are wrapped at all. -/

def wrapCondition (xs : List ℚ) : Bool :=
  decide (360 - gridRes xs ≤ xs.getLastD 0 - xs.getD 0 0)

/-- Lines 86-92 of `track()`: the final wrap step applied to the
3-D-labeled volume.  When the x-coordinate span test fails the labels
pass through untouched and `N_final` is just their maximum. -/

def trackWrapStage (xs : List ℚ) (V : Volume) : Volume × ℕ :=
  if wrapCondition xs then wrapUnify V else (V, volMax V)

/-- Line 97: `new_labels.where(new_labels != 0, other=np.nan)` — the
0 label becomes the missing-data sentinel of the returned array. -/

def sentinelize (n : ℕ) : Option ℕ := if n = 0 then none else some n

/-- The labels of the first column that `x` gets merged into: the
positive first-column values `v` whose `bad_labels` set contains `x`,
in ascending order. -/

def wrapMergeTargets (f : Frame) (x : ℕ) : List ℕ :=
  (uniqueFirst f).filter (fun v => decide (x ∈ badList f v))

/-- Per-cell closed form of `wrap_x`: the last (= largest) first-column
value whose `bad_labels` contain the cell's original value, defaulting
to the original value when no merge touches the cell. -/

def wrapClosedForm (f : Frame) (i j : ℕ) : ℕ :=
  (wrapMergeTargets f (cellAt f i j)).getLastD (cellAt f i j)

/-! ### Area Filter (Tracker._filter_area lines 202-224, track lines 103-111)

`regionprops_table(labels_wrapped, properties=['label', 'area'])` lists
the distinct positive labels in ascending order with their voxel counts
over the whole volume; `np.percentile(area, min_size_quartile*100)`
computes the linearly interpolated percentile of the areas;
`labelprops.where(area >= min_area)` keeps the labels at or above the
threshold, and `np.where(np.isin(labels_wrapped, keep_labels) == False,
0, labels_wrapped)` zeroes every cell of a discarded label; line 222
collapses the survivors to a binary presence volume.  Areas are integer
pixel counts, so the float arithmetic of the percentile and of the
percent-area metadata is exact and is embedded in ℚ. -/

/-- The ascending list of distinct positive labels of the volume
(`props['label']` of line 203-205). -/

def labelsPresent (V : Volume) : List ℕ :=
  (((volVals V).filter (fun v => decide (0 < v))).dedup).insertionSort (· ≤ ·)

/-- Whole-volume pixel count of one label (`props['area']`). -/

def areaOf (V : Volume) (w : ℕ) : ℕ := (volVals V).count w

/-- The area table, ordered like `labelsPresent` (lines 208-209). -/

def areasList (V : Volume) : List ℕ := (labelsPresent V).map (areaOf V)

/-- `np.percentile(l, q*100)` with the default linear interpolation:
with `s` the ascending sort of `l` and `h = (len(s)-1)*q`, the result
is `s[⌊h⌋] + (h-⌊h⌋)*(s[⌊h⌋+1]-s[⌊h⌋])` (the upper index is only read
when the fractional part is non-zero, in which case it is in range for
`0 ≤ q ≤ 1`). -/

def percentileQ (l : List ℕ) (q : ℚ) : ℚ :=
  let s := l.insertionSort (· ≤ ·)
  if s.length = 0 then 0
  else
    let pos : ℚ := ((s.length : ℚ) - 1) * q
    let k : ℕ := (Int.floor pos).toNat
    let frac : ℚ := pos - ((Int.floor pos : ℤ) : ℚ)
    ((s.getD k 0 : ℕ) : ℚ)
      + frac * (((s.getD (k + 1) (s.getLastD 0) : ℕ) : ℚ) - ((s.getD k 0 : ℕ) : ℚ))

/-- Line 214: `min_area = np.percentile(area, min_size_quartile*100)`. -/

def minAreaQ (V : Volume) (q : ℚ) : ℚ := percentileQ (areasList V) q

/-- Line 217: `keep_labels = labelprops.where(area >= min_area)`. -/

def keepLabels (V : Volume) (q : ℚ) : List ℕ :=
  (labelsPresent V).filter (fun w => decide (minAreaQ V q ≤ (areaOf V w : ℚ)))

/-- Lines 218-219: cells of labels outside `keep_labels` become 0. -/

def outLabels (V : Volume) (q : ℚ) : Volume :=
  mapVol (fun c => if c ∈ keepLabels V q then c else 0) V

/-- Line 222: the boolean presence output (0 stays 0, survivors 1). -/

def binaryLabels (V : Volume) (q : ℚ) : Volume :=
  mapVol (fun c => if c = 0 then 0 else 1) (outLabels V q)

/-- The `ValueError` message of line 212. -/

def emptyDetectionMsg : String :=
  "No objects were detected. Try changing radius or min_size_quartile parameters."

/-- Lines 203-224 of `_filter_area` downstream of the wrap pass: the
empty-detection check (line 211-212, `area.size == 0`) followed by the
area-threshold filtering; on success it returns the area table, the
threshold and the filtered presence volume. -/

def filter_area (V : Volume) (q : ℚ) : Except String (List ℕ × ℚ × Volume) :=
  if areasList V = [] then Except.error emptyDetectionMsg
  else Except.ok (areasList V, minAreaQ V q, binaryLabels V q)

/-- Lines 105-106: `area.where(area <= min_area)` (the rejected area
entries of the metadata computation). -/

def rejectAreas (V : Volume) (q : ℚ) : List ℕ :=
  (areasList V).filter (fun a => decide ((a : ℚ) ≤ minAreaQ V q))

/-- Lines 109-110: `area.where(area > min_area)`. -/

def acceptAreas (V : Volume) (q : ℚ) : List ℕ :=
  (areasList V).filter (fun a => decide (minAreaQ V q < (a : ℚ)))

/-- Line 103: `sum_tot_area = int(np.sum(area.values))`. -/

def sumTotArea (V : Volume) : ℕ := (areasList V).sum

/-- Line 107: `percent_area_reject = sum_reject_area / sum_tot_area`. -/

def percentAreaReject (V : Volume) (q : ℚ) : ℚ :=
  ((rejectAreas V q).sum : ℚ) / (sumTotArea V : ℚ)

/-- Line 111: `percent_area_accept = sum_accept_area / sum_tot_area`. -/

def percentAreaAccept (V : Volume) (q : ℚ) : ℚ :=
  ((acceptAreas V q).sum : ℚ) / (sumTotArea V : ℚ)

/-! ### Per-frame connected-component labeling (C1)

`Tracker._filter_area` labels each 2-D frame through `get_labels`
(lines 179-181), which calls `Tracker._label_either(binary_images,
background=0)`; on the numpy blocks that `apply_ufunc` passes in,
`_label_either` (lines 227-241) dispatches to `skimage.measure.label`.
That call passes no `connectivity` argument, and skimage's documented
default is `connectivity = input.ndim`, i.e. FULL 2-D connectivity for
a frame: two foreground pixels are neighbours when they differ by at
most 1 in each coordinate (edge or corner).  The primitive is external
to the repository and is modelled denotationally: the component of a
foreground cell is the least set containing it that is closed under
foreground adjacency (computed as an `H*W`-step fixpoint below), and
labels number the components `1..n` by their smallest raster index,
background cells getting 0. -/

/-- Full 2-D (8-)connectivity: the skimage default adjacency for 2-D
input — Chebyshev distance 1. -/

def adjacent8 (y1 x1 y2 x2 : ℕ) : Bool :=
  decide ((((y1 : ℤ) - y2).natAbs ≤ 1) ∧ (((x1 : ℤ) - x2).natAbs ≤ 1)
    ∧ ¬(y1 = y2 ∧ x1 = x2))

/-- All cell coordinates of an `H × W` frame. -/

def gridCells (H W : ℕ) : Finset (ℕ × ℕ) := Finset.range H ×ˢ Finset.range W

/-- The foreground (presence) cells of a frame given by its indicator
`g`. -/

def fgCells (g : ℕ → ℕ → Bool) (H W : ℕ) : Finset (ℕ × ℕ) :=
  (gridCells H W).filter (fun c => g c.1 c.2 = true)

/-- One step of component growth: all foreground cells already in `s`
or adjacent to a cell of `s`. -/

def growComp (g : ℕ → ℕ → Bool) (H W : ℕ) (s : Finset (ℕ × ℕ)) : Finset (ℕ × ℕ) :=
  (fgCells g H W).filter (fun c => c ∈ s ∨ ∃ d ∈ s, adjacent8 d.1 d.2 c.1 c.2 = true)

/-- `n`-fold iteration of component growth. -/

def iterComp (g : ℕ → ℕ → Bool) (H W : ℕ) : ℕ → Finset (ℕ × ℕ) → Finset (ℕ × ℕ)
  | 0, s => s
  | n + 1, s => iterComp g H W n (growComp g H W s)

/-- The connected component of a cell under foreground 8-adjacency
(`H*W` growth steps saturate, as proved below). -/

def component (g : ℕ → ℕ → Bool) (H W : ℕ) (c : ℕ × ℕ) : Finset (ℕ × ℕ) :=
  iterComp g H W (H * W) {c}

/-- The smallest raster index (`y*W + x`) of the component of `c` — the
canonical representative skimage's raster-order numbering is keyed on. -/

def reprKey (g : ℕ → ℕ → Bool) (H W : ℕ) (c : ℕ × ℕ) : ℕ :=
  ((List.range (H * W)).filter
    (fun k => decide ((k / W, k % W) ∈ component g H W c))).headD (H * W)

/-- The set of component representatives of the frame. -/

def compLabels (g : ℕ → ℕ → Bool) (H W : ℕ) : Finset ℕ :=
  (fgCells g H W).image (reprKey g H W)

/-- Model of `skimage.measure.label(frame, background=0)` at cell
(y, x): background cells get 0; a foreground cell gets 1 plus the
number of components whose representative precedes its own in raster
order (labels are therefore `1..n` in order of first raster
occurrence). -/

def labelOf (g : ℕ → ℕ → Bool) (H W y x : ℕ) : ℕ :=
  if g y x = true ∧ y < H ∧ x < W then
    ((compLabels g H W).filter (fun k => k < reprKey g H W (y, x))).card + 1
  else 0

/-! ### Concrete example inputs used by counterexamples and witnesses -/

/-- Two presence cells touching only at a corner. -/

def diagFrame : ℕ → ℕ → Bool := fun y x => (y == 0 && x == 0) || (y == 1 && x == 1)

/-- Two presence cells sharing an edge. -/

def adjFrame : ℕ → ℕ → Bool := fun y x => y == 0 && (x == 0 || x == 1)

/-- x-coordinates 0..9 on a width-10 grid: span 9, far below 360. -/

def cexXs : List ℚ := [0, 1, 2, 3, 4, 5, 6, 7, 8, 9]

/-- One frame, one row, an object touching both the first and the last
x-column (labels 2 and 7 after 3-D labeling). -/

def cexVol : Volume := [[[2, 0, 0, 7]]]

/-- x-coordinates spanning a full period: grid_res = 120 and
359 - 0 ≥ 360 - 120. -/

def wrapXs : List ℚ := [0, 120, 240, 359]

/-- A seam-adjacent pair of labels in a width-3 frame. -/

def wvol : Volume := [[[2, 0, 7]]]

/-- A frame with a seam-adjacent label pair and a background row. -/

def c4vol : Volume := [[[2, 0, 7], [0, 0, 0]]]

/-- Two labels of areas 2 and 1. -/

def V5 : Volume := [[[1, 1, 2]]]

/-- The percentile parameter 1/2. -/

def q5 : ℚ := 1 / 2

/-- Two one-cell frames, both locally labeled 1. -/

def V6 : Volume := [[[1]], [[1]]]

/-- An all-zero presence volume. -/

def V7 : Volume := [[[0, 0], [0, 0]]]

/-- A zero-free label volume whose smallest label is 3. -/

def V9 : Volume := [[[3, 5], [5, 3]]]

/-! ## Lemmas and claim theorems -/

/-! #### Generic list/volume access lemmas -/

theorem getD_map_lt {α β : Type} (φ : α → β) :
    ∀ (l : List α) (i : ℕ), i < l.length → ∀ (d : β) (d' : α),
      (l.map φ).getD i d = φ (l.getD i d')
  | a :: l, 0, _, _, _ => rfl
  | a :: l, i + 1, h, d, d' => getD_map_lt φ l i (Nat.lt_of_succ_lt_succ h) d d'

theorem cellAt_def (f : Frame) (i j : ℕ) : cellAt f i j = (f.getD i []).getD j 0 := rfl

theorem cellAt3_def (V : Volume) (t i j : ℕ) :
    cellAt3 V t i j = cellAt (V.getD t []) i j := rfl

theorem cellAt_pos_bounds {f : Frame} {i j : ℕ} (h : 0 < cellAt f i j) :
    i < f.length ∧ j < (f.getD i []).length := by
  constructor
  · by_contra hle
    have hrow : f.getD i [] = [] := List.getD_eq_default _ _ (Nat.le_of_not_lt hle)
    rw [cellAt_def, hrow, List.getD_nil] at h
    exact absurd h (lt_irrefl 0)
  · by_contra hle
    have hc : (f.getD i []).getD j 0 = 0 :=
      List.getD_eq_default _ _ (Nat.le_of_not_lt hle)
    rw [cellAt_def, hc] at h
    exact absurd h (lt_irrefl 0)

theorem cellAt_mem_frameVals {f : Frame} {i j : ℕ} (h : 0 < cellAt f i j) :
    cellAt f i j ∈ frameVals f := by
  obtain ⟨hi, hj⟩ := cellAt_pos_bounds h
  have hrow : f.getD i [] ∈ f := by
    rw [List.getD_eq_getElem _ _ hi]; exact List.getElem_mem hi
  have hval : cellAt f i j ∈ f.getD i [] := by
    have := List.getD_eq_getElem (f.getD i []) 0 hj
    rw [cellAt, this]
    exact List.getElem_mem hj
  exact List.mem_flatten_of_mem hrow hval

theorem cellAt3_pos_bounds {V : Volume} {t i j : ℕ} (h : 0 < cellAt3 V t i j) :
    t < V.length ∧ i < (V.getD t []).length ∧ j < ((V.getD t []).getD i []).length := by
  have hb := cellAt_pos_bounds (f := V.getD t []) h
  refine ⟨?_, hb⟩
  by_contra hle
  have hfr : V.getD t [] = [] := List.getD_eq_default _ _ (Nat.le_of_not_lt hle)
  rw [cellAt3_def, hfr, cellAt_def, List.getD_nil, List.getD_nil] at h
  exact absurd h (lt_irrefl 0)

theorem cellAt3_mem_volVals {V : Volume} {t i j : ℕ} (h : 0 < cellAt3 V t i j) :
    cellAt3 V t i j ∈ volVals V := by
  obtain ⟨ht, _, _⟩ := cellAt3_pos_bounds h
  have hframe : V.getD t [] ∈ V := by
    rw [List.getD_eq_getElem _ _ ht]; exact List.getElem_mem ht
  have hmem : cellAt3 V t i j ∈ frameVals (V.getD t []) := cellAt_mem_frameVals h
  exact List.mem_flatten_of_mem (List.mem_map_of_mem frameVals hframe) hmem

theorem frameVals_mapFrame (φ : ℕ → ℕ) (f : Frame) :
    frameVals (f.map (fun row => row.map φ)) = (frameVals f).map φ := by
  rw [frameVals, frameVals, List.map_flatten]

theorem volVals_mapVol (φ : ℕ → ℕ) (V : Volume) :
    volVals (mapVol φ V) = (volVals V).map φ := by
  rw [volVals, volVals, mapVol, List.map_map, List.map_flatten, List.map_map]
  refine congrArg List.flatten (List.map_congr_left fun f _ => ?_)
  exact frameVals_mapFrame φ f

theorem cellAt3_mapVol (φ : ℕ → ℕ) {V : Volume} {t i j : ℕ}
    (ht : t < V.length) (hi : i < (V.getD t []).length)
    (hj : j < ((V.getD t []).getD i []).length) :
    cellAt3 (mapVol φ V) t i j = φ (cellAt3 V t i j) := by
  rw [cellAt3_def, cellAt3_def, mapVol, getD_map_lt _ V t ht [] [], cellAt_def, cellAt_def,
    getD_map_lt _ _ i hi [] [], getD_map_lt _ _ j hj 0 0]

theorem le_foldr_max {a : ℕ} : ∀ {l : List ℕ}, a ∈ l → a ≤ l.foldr max 0
  | b :: l, h => by
    rcases List.mem_cons.1 h with rfl | h
    · exact le_max_left _ _
    · exact le_trans (le_foldr_max h) (le_max_right _ _)

theorem foldr_max_le {b : ℕ} : ∀ {l : List ℕ}, (∀ a ∈ l, a ≤ b) → l.foldr max 0 ≤ b
  | [], _ => Nat.zero_le b
  | c :: l, h => by
    rw [List.foldr_cons]
    exact max_le (h c (List.mem_cons_self c l)) (foldr_max_le fun a ha => h a (List.mem_cons_of_mem c ha))

theorem offsetAt_succ : ∀ (V : Volume) (t : ℕ), t < V.length →
    offsetAt V (t + 1) = offsetAt V t + frameMax (V.getD t [])
  | f :: R, 0, _ => by
    simp [offsetAt, List.take, List.getD_cons_zero]
  | f :: R, t + 1, h => by
    have ih := offsetAt_succ R t (Nat.lt_of_succ_lt_succ h)
    simp only [offsetAt, List.take_succ_cons, List.map_cons, List.sum_cons,
      List.getD_cons_succ] at *
    rw [ih, Nat.add_assoc]

theorem offsetAt_mono : ∀ (V : Volume) (t u : ℕ), t ≤ u → offsetAt V t ≤ offsetAt V u
  | [], t, u, _ => by simp [offsetAt]
  | f :: R, 0, u, _ => by
    simp only [offsetAt, List.take_zero, List.map_nil, List.sum_nil]
    exact Nat.zero_le _
  | f :: R, t + 1, u + 1, h => by
    simp only [offsetAt, List.take_succ_cons, List.map_cons, List.sum_cons]
    exact Nat.add_le_add_left (offsetAt_mono R t u (Nat.le_of_succ_le_succ h)) _

/-! #### Closed form of the per-frame wrap pass -/

theorem cellAt_buildFrame {H W : ℕ} (g : ℕ → ℕ → ℕ) {i j : ℕ}
    (hi : i < H) (hj : j < W) : cellAt (buildFrame H W g) i j = g i j := by
  have hlen : i < (List.range H).length := by rwa [List.length_range]
  have hlen2 : j < (List.range W).length := by rwa [List.length_range]
  rw [cellAt_def, buildFrame, getD_map_lt _ _ i hlen [] 0,
    getD_map_lt _ _ j hlen2 0 0, List.getD_eq_getElem _ _ hlen,
    List.getD_eq_getElem _ _ hlen2, List.getElem_range, List.getElem_range]

theorem cellAt_rewriteStep (f : Frame) (g : Frame) (v : ℕ) {i j : ℕ}
    (hi : i < height f) (hj : j < width f) :
    cellAt (rewriteStep f g v) i j
      = if cellAt f i j ∈ badList f v then v else cellAt g i j :=
  cellAt_buildFrame _ hi hj

theorem cellAt_foldl_rewrite (f : Frame) {i j : ℕ}
    (hi : i < height f) (hj : j < width f) :
    ∀ (l : List ℕ) (g : Frame),
      cellAt (l.foldl (rewriteStep f) g) i j
        = (l.filter (fun v => decide (cellAt f i j ∈ badList f v))).getLastD (cellAt g i j)
  | [], g => by rw [List.foldl_nil, List.filter_nil, List.getLastD_nil]
  | v :: l, g => by
    rw [List.foldl_cons, cellAt_foldl_rewrite f hi hj l (rewriteStep f g v),
      List.filter_cons, cellAt_rewriteStep f g v hi hj]
    by_cases hmem : cellAt f i j ∈ badList f v
    · rw [if_pos hmem, if_pos (decide_eq_true hmem), List.getLastD_cons]
    · rw [if_neg hmem, if_neg (fun hc => hmem (of_decide_eq_true hc))]

theorem cellAt_wrap_x (f : Frame) {i j : ℕ} (hi : i < height f) (hj : j < width f) :
    cellAt (wrap_x f) i j = wrapClosedForm f i j :=
  cellAt_foldl_rewrite f hi hj (uniqueFirst f) f

/-! #### Sorted-unique-value facts for the dense relabeling -/

theorem sortedVals_sorted_le (V : Volume) : (sortedVals V).Sorted (· ≤ ·) :=
  List.sorted_insertionSort _ _

theorem sortedVals_nodup (V : Volume) : (sortedVals V).Nodup :=
  (List.perm_insertionSort _ _).nodup_iff.2 (List.nodup_dedup _)

theorem sortedVals_sorted_lt (V : Volume) : (sortedVals V).Sorted (· < ·) :=
  (sortedVals_sorted_le V).lt_of_le (sortedVals_nodup V)

theorem mem_sortedVals {V : Volume} {x : ℕ} : x ∈ sortedVals V ↔ x ∈ volVals V :=
  ((List.perm_insertionSort _ _).mem_iff).trans List.mem_dedup

/-- In a strictly sorted list, the number of elements smaller than the
`k`-th element is exactly `k`. -/

theorem sorted_rank_get : ∀ (S : List ℕ), S.Sorted (· < ·) → ∀ (k : ℕ) (h : k < S.length),
    (S.filter (fun u => decide (u < S.get ⟨k, h⟩))).length = k
  | [], _, k, h => absurd h (Nat.not_lt_zero k)
  | a :: T, hS, 0, h => by
    have hT : ∀ b ∈ T, a < b := (List.pairwise_cons.1 hS).1
    have hnil : (a :: T).filter (fun u => decide (u < (a :: T).get ⟨0, h⟩)) = [] := by
      refine List.filter_eq_nil_iff.2 ?_
      intro b hb hdec
      have hba : b < a := of_decide_eq_true hdec
      rcases List.mem_cons.1 hb with rfl | hbT
      · exact absurd hba (lt_irrefl b)
      · exact absurd hba (not_lt.2 (le_of_lt (hT b hbT)))
    rw [hnil]
    rfl
  | a :: T, hS, k + 1, h => by
    have hk : k < T.length := Nat.lt_of_succ_lt_succ h
    have hget : (a :: T).get ⟨k + 1, h⟩ = T.get ⟨k, hk⟩ := rfl
    have hx : a < T.get ⟨k, hk⟩ := (List.pairwise_cons.1 hS).1 _ (List.get_mem T k hk)
    rw [hget, List.filter_cons, if_pos (decide_eq_true hx), List.length_cons,
      sorted_rank_get T (List.pairwise_cons.1 hS).2 k hk]

/-- In a strictly sorted list, the number of elements smaller than a
member equals the member's index. -/

theorem sorted_rank_indexOf : ∀ (S : List ℕ), S.Sorted (· < ·) → ∀ x ∈ S,
    (S.filter (fun u => decide (u < x))).length = S.indexOf x
  | a :: T, hS, x, hx => by
    rcases List.mem_cons.1 hx with rfl | hxT
    · have hT : ∀ b ∈ T, x < b := (List.pairwise_cons.1 hS).1
      have hnil : (x :: T).filter (fun u => decide (u < x)) = [] := by
        refine List.filter_eq_nil_iff.2 ?_
        intro b hb hdec
        have hbx : b < x := of_decide_eq_true hdec
        rcases List.mem_cons.1 hb with rfl | hbT
        · exact absurd hbx (lt_irrefl b)
        · exact absurd hbx (not_lt.2 (le_of_lt (hT b hbT)))
      rw [hnil, List.indexOf_cons_self]
      rfl
    · have hax : a < x := (List.pairwise_cons.1 hS).1 x hxT
      rw [List.indexOf_cons_ne _ (ne_of_lt hax), List.filter_cons,
        if_pos (decide_eq_true hax), List.length_cons,
        sorted_rank_indexOf T (List.pairwise_cons.1 hS).2 x hxT]

/-- The number of elements of `S` smaller than a member of `S` is at
most `S.length - 1`. -/

theorem filter_lt_length_le {S : List ℕ} {x : ℕ} (hx : x ∈ S) :
    (S.filter (fun u => decide (u < x))).length ≤ S.length - 1 := by
  have hperm : S.Perm (x :: S.erase x) := List.perm_cons_erase hx
  have h1 := (hperm.filter (fun u => decide (u < x))).length_eq
  rw [List.filter_cons, if_neg (by simp)] at h1
  have h2 : ((S.erase x).filter (fun u => decide (u < x))).length ≤ (S.erase x).length :=
    List.length_filter_le _ _
  have h3 : (S.erase x).length + 1 = S.length := List.length_erase_add_one hx
  omega

theorem length_filter_pos_range : ∀ n : ℕ,
    ((List.range n).filter (fun v => decide (0 < v))).length = n - 1
  | 0 => rfl
  | n + 1 => by
    rw [List.range_succ, List.filter_append, List.length_append, length_filter_pos_range n]
    cases n with
    | zero => rfl
    | succ m =>
      rw [List.filter_cons, if_pos (decide_eq_true (Nat.succ_pos m))]
      simp

/-! #### Dense relabeling: rank facts about `inverse_unique` -/

theorem searchsortedRank_le {V : Volume} {x : ℕ} (hx : x ∈ volVals V) :
    searchsortedRank V x ≤ (sortedVals V).length - 1 :=
  filter_lt_length_le (mem_sortedVals.2 hx)

theorem searchsortedRank_zero (V : Volume) : searchsortedRank V 0 = 0 := by
  rw [searchsortedRank]
  rw [List.filter_eq_nil_iff.2 ?_]
  · rfl
  · intro u _ hdec
    exact absurd (of_decide_eq_true hdec) (Nat.not_lt_zero u)

/-- The rank map is the index into the sorted distinct values: this is
the "remapped to its rank in the sorted set of unique values present"
clause of the specification. -/

theorem searchsortedRank_eq_indexOf {V : Volume} {x : ℕ} (hx : x ∈ volVals V) :
    searchsortedRank V x = (sortedVals V).indexOf x :=
  sorted_rank_indexOf _ (sortedVals_sorted_lt V) x (mem_sortedVals.2 hx)

theorem volVals_inverse_unique (V : Volume) :
    volVals (inverse_unique V) = (volVals V).map (searchsortedRank V) :=
  volVals_mapVol _ V

/-- `_wrap`'s returned count `N = labels_wrapped_unique.max()` equals
the number of distinct non-zero labels in the returned volume. -/

theorem wrapUnify_count (V : Volume) :
    (wrapUnify V).2 = distinctNonzeroCount (wrapUnify V).1 := by
  have hU : (wrapUnify V).1 = inverse_unique (wrapFrames V) := rfl
  have hN : (wrapUnify V).2 = volMax (inverse_unique (wrapFrames V)) := rfl
  rw [hU, hN]
  set W := wrapFrames V with hW
  rcases eq_or_ne (volVals W) [] with hnil | hne
  · rw [volMax, distinctNonzeroCount, volVals_inverse_unique, hnil]
    rfl
  · obtain ⟨a, ha⟩ := List.exists_mem_of_ne_nil _ hne
    have haS : a ∈ sortedVals W := mem_sortedVals.2 ha
    have hSne : sortedVals W ≠ [] := List.ne_nil_of_mem haS
    have hn1 : 1 ≤ (sortedVals W).length := List.length_pos.2 hSne
    set n := (sortedVals W).length with hn
    have hlt : n - 1 < n := Nat.sub_lt (Nat.lt_of_lt_of_le Nat.zero_lt_one hn1) Nat.zero_lt_one
    set xmax := (sortedVals W).get ⟨n - 1, hlt⟩ with hxmax
    have hxmem : xmax ∈ volVals W := mem_sortedVals.1 (List.get_mem _ _ _)
    have hrankmax : searchsortedRank W xmax = n - 1 :=
      sorted_rank_get _ (sortedVals_sorted_lt W) (n - 1) hlt
    have hbound : ∀ y ∈ volVals (inverse_unique W), y ≤ n - 1 := by
      intro y hy
      rw [volVals_inverse_unique] at hy
      obtain ⟨x, hxW, rfl⟩ := List.mem_map.1 hy
      exact searchsortedRank_le hxW
    have hattain : n - 1 ∈ volVals (inverse_unique W) := by
      rw [volVals_inverse_unique]
      exact hrankmax ▸ List.mem_map_of_mem _ hxmem
    have hmax : volMax (inverse_unique W) = n - 1 :=
      Nat.le_antisymm (foldr_max_le hbound) (le_foldr_max hattain)
    have hperm : ((volVals (inverse_unique W)).dedup).Perm (List.range n) := by
      rw [(List.perm_ext_iff_of_nodup (List.nodup_dedup _) (List.nodup_range n))]
      intro k
      rw [List.mem_dedup, List.mem_range]
      constructor
      · intro hk
        exact Nat.lt_of_le_of_lt (hbound k hk) hlt
      · intro hk
        have hkget : searchsortedRank W ((sortedVals W).get ⟨k, hk⟩) = k :=
          sorted_rank_get _ (sortedVals_sorted_lt W) k hk
        have : (sortedVals W).get ⟨k, hk⟩ ∈ volVals W :=
          mem_sortedVals.1 (List.get_mem _ _ _)
        rw [volVals_inverse_unique]
        exact hkget ▸ List.mem_map_of_mem _ this
    have hcount : distinctNonzeroCount (inverse_unique W) = n - 1 := by
      rw [distinctNonzeroCount, (hperm.filter _).length_eq, length_filter_pos_range]
    rw [hmax, hcount]

/-! #### Facts about the ascending first-column value list -/

theorem uniqueFirst_sorted_le (f : Frame) : (uniqueFirst f).Sorted (· ≤ ·) :=
  List.sorted_insertionSort _ _

theorem sorted_le_getLastD : ∀ {l : List ℕ}, l.Sorted (· ≤ ·) →
    ∀ {a : ℕ}, a ∈ l → ∀ d, a ≤ l.getLastD d
  | b :: t, hs, a, ha, d => by
    rw [List.getLastD_cons]
    rcases List.mem_cons.1 ha with rfl | hat
    · cases t with
      | nil => exact le_refl _
      | cons c t' =>
        have hbc : a ≤ c := (List.pairwise_cons.1 hs).1 c (List.mem_cons_self _ _)
        exact le_trans hbc
          (sorted_le_getLastD (List.pairwise_cons.1 hs).2 (List.mem_cons_self c t') a)
    · exact sorted_le_getLastD (List.pairwise_cons.1 hs).2 hat b

theorem getLastD_mem_of_ne_nil : ∀ {l : List ℕ}, l ≠ [] → ∀ d, l.getLastD d ∈ l
  | [b], _, d => by
    rw [List.getLastD_cons, List.getLastD_nil]
    exact List.mem_cons_self b []
  | b :: c :: t, _, d => by
    rw [List.getLastD_cons]
    exact List.mem_cons_of_mem b (getLastD_mem_of_ne_nil (List.cons_ne_nil c t) b)

theorem mem_labelsPresent {V : Volume} {w : ℕ} :
    w ∈ labelsPresent V ↔ w ∈ volVals V ∧ 0 < w := by
  rw [labelsPresent]
  rw [(List.perm_insertionSort _ _).mem_iff, List.mem_dedup, List.mem_filter]
  simp only [decide_eq_true_iff]

theorem mapVol_mapVol (φ σ : ℕ → ℕ) (V : Volume) :
    mapVol σ (mapVol φ V) = mapVol (fun c => σ (φ c)) V := by
  rw [mapVol, mapVol, mapVol, List.map_map]
  refine List.map_congr_left fun f _ => ?_
  rw [Function.comp_apply, List.map_map]
  refine List.map_congr_left fun row _ => ?_
  rw [Function.comp_apply, List.map_map]
  rfl

theorem sum_filter_gt_add_filter_le (m : ℚ) : ∀ l : List ℕ,
    (l.filter (fun a : ℕ => decide (m < (a : ℚ)))).sum
      + (l.filter (fun a : ℕ => decide ((a : ℚ) ≤ m))).sum = l.sum
  | [] => rfl
  | a :: l => by
    rw [List.filter_cons, List.filter_cons, List.sum_cons]
    by_cases h : m < (a : ℚ)
    · rw [if_pos (decide_eq_true h),
        if_neg (fun hc => absurd (of_decide_eq_true hc) (not_le.2 h)), List.sum_cons,
        Nat.add_assoc, sum_filter_gt_add_filter_le m l]
    · rw [if_neg (fun hc => absurd (of_decide_eq_true hc) h),
        if_pos (decide_eq_true (not_lt.1 h)), List.sum_cons]
      have := sum_filter_gt_add_filter_le m l
      omega

theorem adjacent8_symm {y1 x1 y2 x2 : ℕ} (h : adjacent8 y1 x1 y2 x2 = true) :
    adjacent8 y2 x2 y1 x1 = true := by
  rw [adjacent8, decide_eq_true_iff] at *
  omega

theorem mem_gridCells {H W : ℕ} {c : ℕ × ℕ} :
    c ∈ gridCells H W ↔ c.1 < H ∧ c.2 < W := by
  rw [gridCells, Finset.mem_product, Finset.mem_range, Finset.mem_range]

theorem mem_fgCells {g : ℕ → ℕ → Bool} {H W : ℕ} {c : ℕ × ℕ} :
    c ∈ fgCells g H W ↔ (c.1 < H ∧ c.2 < W) ∧ g c.1 c.2 = true := by
  rw [fgCells, Finset.mem_filter, mem_gridCells]

section ComponentLemmas

variable {g : ℕ → ℕ → Bool} {H W : ℕ}

theorem growComp_subset_fg {s : Finset (ℕ × ℕ)} : growComp g H W s ⊆ fgCells g H W :=
  Finset.filter_subset _ _

theorem subset_growComp {s : Finset (ℕ × ℕ)} (hs : s ⊆ fgCells g H W) :
    s ⊆ growComp g H W s :=
  fun c hc => Finset.mem_filter.2 ⟨hs hc, Or.inl hc⟩

theorem growComp_mono {s t : Finset (ℕ × ℕ)} (hst : s ⊆ t) :
    growComp g H W s ⊆ growComp g H W t := by
  intro c hc
  rw [growComp, Finset.mem_filter] at hc ⊢
  obtain ⟨hfg, hor⟩ := hc
  refine ⟨hfg, ?_⟩
  rcases hor with hmem | ⟨d, hd, hadj⟩
  · exact Or.inl (hst hmem)
  · exact Or.inr ⟨d, hst hd, hadj⟩

theorem mem_growComp_of_adj {s : Finset (ℕ × ℕ)} {c d : ℕ × ℕ}
    (hd : d ∈ fgCells g H W) (hc : c ∈ s) (hadj : adjacent8 c.1 c.2 d.1 d.2 = true) :
    d ∈ growComp g H W s :=
  Finset.mem_filter.2 ⟨hd, Or.inr ⟨c, hc, hadj⟩⟩

theorem iterComp_succ (n : ℕ) (s : Finset (ℕ × ℕ)) :
    iterComp g H W (n + 1) s = iterComp g H W n (growComp g H W s) := rfl

theorem subset_iterComp : ∀ (n : ℕ) (s : Finset (ℕ × ℕ)), s ⊆ fgCells g H W →
    s ⊆ iterComp g H W n s
  | 0, s, _ => subset_refl s
  | n + 1, s, h => (subset_growComp h).trans (subset_iterComp n _ growComp_subset_fg)

theorem iterComp_mono : ∀ (n : ℕ) {s t : Finset (ℕ × ℕ)}, s ⊆ t →
    iterComp g H W n s ⊆ iterComp g H W n t
  | 0, _, _, h => h
  | n + 1, _, _, h => iterComp_mono n (growComp_mono h)

theorem iterComp_of_fixed : ∀ (n : ℕ) {s : Finset (ℕ × ℕ)},
    growComp g H W s = s → iterComp g H W n s = s
  | 0, _, _ => rfl
  | n + 1, s, h => by rw [iterComp_succ, h, iterComp_of_fixed n h]

theorem iterComp_subset_closed (n : ℕ) {s T : Finset (ℕ × ℕ)}
    (hsT : s ⊆ T) (hT : growComp g H W T = T) : iterComp g H W n s ⊆ T := by
  have h1 : iterComp g H W n s ⊆ iterComp g H W n T := iterComp_mono n hsT
  rwa [iterComp_of_fixed n hT] at h1

theorem growComp_fg_fixed : growComp g H W (fgCells g H W) = fgCells g H W :=
  subset_antisymm growComp_subset_fg (subset_growComp (subset_refl _))

theorem growComp_iterComp_eq : ∀ (n : ℕ) (s : Finset (ℕ × ℕ)), s ⊆ fgCells g H W →
    (fgCells g H W).card ≤ s.card + n →
    growComp g H W (iterComp g H W n s) = iterComp g H W n s
  | 0, s, hs, hcard => by
    have hseq : s = fgCells g H W :=
      Finset.eq_of_subset_of_card_le hs (by omega)
    show growComp g H W s = s
    rw [hseq]
    exact growComp_fg_fixed
  | n + 1, s, hs, hcard => by
    by_cases hfix : growComp g H W s = s
    · rw [iterComp_succ, hfix, iterComp_of_fixed n hfix]
      exact hfix
    · have hsub : s ⊆ growComp g H W s := subset_growComp hs
      have hlt : s.card < (growComp g H W s).card :=
        Finset.card_lt_card (Finset.ssubset_iff_subset_ne.2 ⟨hsub, fun he => hfix he.symm⟩)
      rw [iterComp_succ]
      exact growComp_iterComp_eq n _ growComp_subset_fg (by omega)

theorem card_fgCells_le : (fgCells g H W).card ≤ H * W := by
  have h1 : (fgCells g H W).card ≤ (gridCells H W).card := Finset.card_filter_le _ _
  rwa [gridCells, Finset.card_product, Finset.card_range, Finset.card_range] at h1

theorem component_fixed {c : ℕ × ℕ} (hc : c ∈ fgCells g H W) :
    growComp g H W (component g H W c) = component g H W c := by
  refine growComp_iterComp_eq (H * W) {c} (Finset.singleton_subset_iff.2 hc) ?_
  have := card_fgCells_le (g := g) (H := H) (W := W)
  rw [Finset.card_singleton]
  omega

theorem mem_component_self {c : ℕ × ℕ} (hc : c ∈ fgCells g H W) :
    c ∈ component g H W c :=
  subset_iterComp _ _ (Finset.singleton_subset_iff.2 hc) (Finset.mem_singleton_self c)

theorem mem_component_adj {c d : ℕ × ℕ} (hc : c ∈ fgCells g H W)
    (hd : d ∈ fgCells g H W) (hadj : adjacent8 c.1 c.2 d.1 d.2 = true) :
    d ∈ component g H W c := by
  have h1 : d ∈ growComp g H W (component g H W c) :=
    mem_growComp_of_adj hd (mem_component_self hc) hadj
  rwa [component_fixed hc] at h1

theorem component_eq_of_adj {c d : ℕ × ℕ} (hc : c ∈ fgCells g H W)
    (hd : d ∈ fgCells g H W) (hadj : adjacent8 c.1 c.2 d.1 d.2 = true) :
    component g H W c = component g H W d := by
  apply subset_antisymm
  · exact iterComp_subset_closed _
      (Finset.singleton_subset_iff.2 (mem_component_adj hd hc (adjacent8_symm hadj)))
      (component_fixed hd)
  · exact iterComp_subset_closed _
      (Finset.singleton_subset_iff.2 (mem_component_adj hc hd hadj))
      (component_fixed hc)

end ComponentLemmas

/-! #### Shape of the wrapped frame -/

theorem buildFrame_length (H W : ℕ) (g : ℕ → ℕ → ℕ) : (buildFrame H W g).length = H := by
  rw [buildFrame, List.length_map, List.length_range]

theorem buildFrame_row_length (H W : ℕ) (g : ℕ → ℕ → ℕ) {i : ℕ} (hi : i < H) :
    ((buildFrame H W g).getD i []).length = W := by
  have hlen : i < (List.range H).length := by rwa [List.length_range]
  rw [buildFrame, getD_map_lt _ _ i hlen [] 0, List.length_map, List.length_range]

theorem foldl_rewrite_shape (f : Frame) : ∀ (l : List ℕ) (g : Frame), l ≠ [] →
    ∃ g' v, l.foldl (rewriteStep f) g = rewriteStep f g' v
  | [], _, hne => absurd rfl hne
  | [v], g, _ => ⟨g, v, rfl⟩
  | v :: v' :: l, g, _ =>
    foldl_rewrite_shape f (v' :: l) (rewriteStep f g v) (List.cons_ne_nil v' l)

theorem wrap_x_length {f : Frame} (hne : uniqueFirst f ≠ []) :
    (wrap_x f).length = height f := by
  obtain ⟨g', v, hgv⟩ := foldl_rewrite_shape f (uniqueFirst f) f hne
  rw [wrap_x, hgv, rewriteStep, buildFrame_length]

theorem wrap_x_row_length {f : Frame} (hne : uniqueFirst f ≠ []) {i : ℕ}
    (hi : i < height f) : ((wrap_x f).getD i []).length = width f := by
  obtain ⟨g', v, hgv⟩ := foldl_rewrite_shape f (uniqueFirst f) f hne
  rw [wrap_x, hgv, rewriteStep, buildFrame_row_length _ _ _ hi]

theorem wrap_x_of_uniqueFirst_nil {f : Frame} (h : uniqueFirst f = []) : wrap_x f = f := by
  rw [wrap_x, h, List.foldl_nil]

/-! #### All-zero volumes through the wrap pass -/

theorem cellAt_eq_zero_of_all_zero {f : Frame} (h : ∀ a ∈ frameVals f, a = 0)
    (i j : ℕ) : cellAt f i j = 0 := by
  by_cases hp : 0 < cellAt f i j
  · exact h _ (cellAt_mem_frameVals hp)
  · omega

theorem frameVals_subset_volVals {V : Volume} {f : Frame} (hf : f ∈ V) :
    ∀ a ∈ frameVals f, a ∈ volVals V := fun a ha =>
  List.mem_flatten_of_mem (List.mem_map_of_mem frameVals hf) ha

theorem uniqueFirst_nil_of_all_zero {f : Frame} (h : ∀ a ∈ frameVals f, a = 0) :
    uniqueFirst f = [] := by
  rw [uniqueFirst]
  have hfil : (firstColVals f).filter (fun v => decide (0 < v)) = [] := by
    refine List.filter_eq_nil_iff.2 ?_
    intro v hv hdec
    rw [firstColVals] at hv
    obtain ⟨i, _, rfl⟩ := List.mem_map.1 hv
    rw [cellAt_eq_zero_of_all_zero h i 0] at hdec
    exact absurd (of_decide_eq_true hdec) (lt_irrefl 0)
  rw [hfil]
  rfl

theorem wrapFrames_of_all_zero {V : Volume} (h : ∀ c ∈ volVals V, c = 0) :
    wrapFrames V = V := by
  rw [wrapFrames]
  have hfix : ∀ f ∈ V, wrap_x f = f := fun f hf =>
    wrap_x_of_uniqueFirst_nil (uniqueFirst_nil_of_all_zero
      (fun a ha => h a (frameVals_subset_volVals hf a ha)))
  rw [List.map_congr_left hfix]
  exact List.map_id V

theorem labelsPresent_nil_of_all_zero {V : Volume} (h : ∀ c ∈ volVals V, c = 0) :
    labelsPresent V = [] := by
  rw [labelsPresent]
  have hfil : (volVals V).filter (fun v => decide (0 < v)) = [] := by
    refine List.filter_eq_nil_iff.2 ?_
    intro v hv hdec
    rw [h v hv] at hdec
    exact absurd (of_decide_eq_true hdec) (lt_irrefl 0)
  rw [hfil]
  rfl

/-! ### Claim theorems -/

/-- C1 (amended): the per-frame labeling of `_filter_area` calls
`skimage.measure.label` with no `connectivity` argument, so it uses the
full 2-D adjacency default (edge OR corner): any two foreground cells
that are 8-adjacent — in particular two diagonally-touching blobs —
receive the SAME positive per-frame label, not distinct ones. -/

theorem frame_labeling_diagonal_merges (g : ℕ → ℕ → Bool) (H W y1 x1 y2 x2 : ℕ)
    (h1 : g y1 x1 = true) (h2 : g y2 x2 = true)
    (hy1 : y1 < H) (hx1 : x1 < W) (hy2 : y2 < H) (hx2 : x2 < W)
    (hadj : adjacent8 y1 x1 y2 x2 = true) :
    labelOf g H W y1 x1 = labelOf g H W y2 x2 ∧ 0 < labelOf g H W y1 x1 := by
  have hc1 : ((y1, x1) : ℕ × ℕ) ∈ fgCells g H W := mem_fgCells.2 ⟨⟨hy1, hx1⟩, h1⟩
  have hc2 : ((y2, x2) : ℕ × ℕ) ∈ fgCells g H W := mem_fgCells.2 ⟨⟨hy2, hx2⟩, h2⟩
  have hcomp : component g H W (y1, x1) = component g H W (y2, x2) :=
    component_eq_of_adj hc1 hc2 hadj
  have hkey : reprKey g H W (y1, x1) = reprKey g H W (y2, x2) := by
    unfold reprKey
    rw [hcomp]
  constructor
  · unfold labelOf
    rw [if_pos ⟨h1, hy1, hx1⟩, if_pos ⟨h2, hy2, hx2⟩, hkey]
  · unfold labelOf
    rw [if_pos ⟨h1, hy1, hx1⟩]
    exact Nat.succ_pos _

/-- C1 counterexample: on the 2×2 frame with presence only at (0,0) and
(1,1) — two blobs touching only at a corner — the per-frame labeling
gives both cells the same label, refuting the claim that they receive
distinct labels under a conservative 4-adjacency. -/

theorem frame_labeling_four_connectivity_cex :
    labelOf diagFrame 2 2 0 0 = labelOf diagFrame 2 2 1 1
      ∧ 0 < labelOf diagFrame 2 2 0 0 := by decide

/-- C1 witness: the amended theorem applied to an edge-adjacent pair in
a concrete 1×3 frame. -/

theorem frame_labeling_diagonal_merges_witness :
    labelOf adjFrame 1 3 0 0 = labelOf adjFrame 1 3 0 1
      ∧ 0 < labelOf adjFrame 1 3 0 0 :=
  frame_labeling_diagonal_merges adjFrame 1 3 0 0 0 1 (by decide) (by decide)
    (by decide) (by decide) (by decide) (by decide) (by decide)

/-- C2 (amended): `track()` applies the Periodic Label Unifier to the
3-D-labeled volume only when the x coordinates span a full period
(`x_last - x_first ≥ 360 - grid_res`); otherwise the labels pass
through unchanged (no merge, `N_final` is just the maximum).  When the
condition holds, a label `w` seam-adjacent to a first-column label `v`
of a frame is merged: all of that frame's `w`-cells receive the rank of
a single first-column label `m ≥ v`. -/

theorem track_wrap_is_conditional (xs : List ℚ) (V : Volume) :
    (wrapCondition xs = false → trackWrapStage xs V = (V, volMax V))
      ∧ (wrapCondition xs = true → ∀ (t v w : ℕ),
          v ∈ uniqueFirst (V.getD t []) → w ∈ badList (V.getD t []) v →
          ∃ m, m ∈ uniqueFirst (V.getD t []) ∧ v ≤ m ∧
            ∀ i j, i < height (V.getD t []) → j < width (V.getD t []) →
              cellAt (V.getD t []) i j = w →
              cellAt3 (trackWrapStage xs V).1 t i j
                = searchsortedRank (wrapFrames V) m) := by
  constructor
  · intro hfalse
    unfold trackWrapStage
    rw [if_neg (by rw [hfalse]; exact Bool.false_ne_true)]
  · intro htrue t v w hv hw
    set f := V.getD t [] with hfdef
    have hwpos : 0 < w := by
      rw [badList] at hw
      exact of_decide_eq_true (List.mem_filter.1 hw).2
    have hvT : v ∈ wrapMergeTargets f w := List.mem_filter.2 ⟨hv, decide_eq_true hw⟩
    have hTne : wrapMergeTargets f w ≠ [] := List.ne_nil_of_mem hvT
    refine ⟨(wrapMergeTargets f w).getLastD w, ?_, ?_, ?_⟩
    · exact List.mem_of_mem_filter (getLastD_mem_of_ne_nil hTne w)
    · exact sorted_le_getLastD ((uniqueFirst_sorted_le f).filter _) hvT w
    · intro i j hi hj hcw
      have hUF : uniqueFirst f ≠ [] := List.ne_nil_of_mem hv
      have ht : t < V.length := by
        by_contra hle
        have hfr : f = [] := hfdef.trans (List.getD_eq_default _ _ (Nat.le_of_not_lt hle))
        rw [height, hfr] at hi
        exact absurd hi (Nat.not_lt_zero i)
      have hstage : trackWrapStage xs V = wrapUnify V := by
        unfold trackWrapStage
        rw [if_pos htrue]
      have hlW : t < (wrapFrames V).length := by
        rw [wrapFrames, List.length_map]
        exact ht
      have hWt : (wrapFrames V).getD t [] = wrap_x f := by
        rw [wrapFrames, getD_map_lt _ V t ht [] []]
      have hiW : i < ((wrapFrames V).getD t []).length := by
        rw [hWt, wrap_x_length hUF]
        exact hi
      have hjW : j < (((wrapFrames V).getD t []).getD i []).length := by
        rw [hWt, wrap_x_row_length hUF hi]
        exact hj
      have hcell3 : cellAt3 (wrapFrames V) t i j = (wrapMergeTargets f w).getLastD w := by
        rw [cellAt3_def, hWt, cellAt_wrap_x f hi hj, wrapClosedForm, hcw]
      rw [hstage]
      show cellAt3 (inverse_unique (wrapFrames V)) t i j = _
      rw [inverse_unique, cellAt3_mapVol _ hlW hiW hjW, hcell3]

/-- C2 counterexample: with x-coordinates 0..9 (span 9, not a full
360-degree period) the final wrap step is skipped entirely: the
seam-spanning object of `cexVol` (label 2 in the first x-column, label
7 in the last, same row) keeps two distinct IDs, although applying the
Periodic Label Unifier would have merged them into one. -/

theorem track_wrap_unconditional_cex :
    (trackWrapStage cexXs cexVol).1 = cexVol
      ∧ cellAt3 (trackWrapStage cexXs cexVol).1 0 0 0 = 2
      ∧ cellAt3 (trackWrapStage cexXs cexVol).1 0 0 3 = 7
      ∧ cellAt3 ((wrapUnify cexVol).1) 0 0 0 = cellAt3 ((wrapUnify cexVol).1) 0 0 3 := by
  have hcond : wrapCondition cexXs = false := by
    rw [wrapCondition, decide_eq_false_iff_not, cexXs, gridRes]
    norm_num
  have hstage : trackWrapStage cexXs cexVol = (cexVol, volMax cexVol) := by
    unfold trackWrapStage
    rw [if_neg (by rw [hcond]; exact Bool.false_ne_true)]
  rw [hstage]
  exact ⟨rfl, by decide, by decide, by decide⟩

/-- C2 witness: the amended theorem at full-period coordinates
`wrapXs` and the seam-adjacent volume `wvol` (v = 2, w = 7). -/

theorem track_wrap_is_conditional_witness :
    ∃ m, m ∈ uniqueFirst (wvol.getD 0 []) ∧ 2 ≤ m ∧
      ∀ i j, i < height (wvol.getD 0 []) → j < width (wvol.getD 0 []) →
        cellAt (wvol.getD 0 []) i j = 7 →
        cellAt3 (trackWrapStage wrapXs wvol).1 0 i j
          = searchsortedRank (wrapFrames wvol) m :=
  (track_wrap_is_conditional wrapXs wvol).2
    (by rw [wrapCondition, decide_eq_true_iff, wrapXs, gridRes]; norm_num)
    0 2 7 (by decide) (by decide)

/-- C3 (code bug): the constructor validates the dimension set — a
non-permutation raises the `ValueError` — but it does NOT correct the
stored field for an out-of-order permutation: `da.transpose(...)` is
assigned to the local `da` and discarded, so the stored dimension order
stays `["lat", "time", "lon"]` instead of `["time", "lat", "lon"]`. -/

theorem constructor_transpose_dropped :
    trackerInitDims ["lat", "time", "lon"] "time" "lat" "lon"
        = Except.ok ["lat", "time", "lon"]
      ∧ ["lat", "time", "lon"] ≠ ["time", "lat", "lon"]
      ∧ trackerInitDims ["time", "lat", "depth"] "time" "lat" "lon"
          = Except.error (dimsErrorMsg "time" "lat" "lon" ["time", "lat", "depth"]) :=
  ⟨by rfl, by decide, by rfl⟩

/-- C4: the Periodic Label Unifier's semantics.  (1) Per-cell closed
form of the per-frame merge pass: lookups read the unmodified input
frame and the result of the snapshot-read/copy-write loop is the last
ascending first-column value whose `bad_labels` contain the cell's
original value (cells not touched by any merge are unchanged, since the
closed form then defaults to the original value).  (2) The dense
relabeling maps every present value to its rank (index) in the sorted
set of unique values present.  (3) 0 is mapped to 0.  (4) The returned
count `N` equals the number of distinct non-zero labels of the returned
volume (the new maximum rank). -/

theorem wrap_unifier_semantics (V : Volume) :
    (∀ (f : Frame) (i j : ℕ), i < height f → j < width f →
        cellAt (wrap_x f) i j = wrapClosedForm f i j)
      ∧ (∀ x ∈ volVals (wrapFrames V),
          searchsortedRank (wrapFrames V) x = (sortedVals (wrapFrames V)).indexOf x)
      ∧ searchsortedRank (wrapFrames V) 0 = 0
      ∧ (wrapUnify V).2 = distinctNonzeroCount (wrapUnify V).1 :=
  ⟨fun f _ _ hi hj => cellAt_wrap_x f hi hj,
   fun _ hx => searchsortedRank_eq_indexOf hx,
   searchsortedRank_zero _,
   wrapUnify_count V⟩

/-- C4 witness: the unifier semantics at the concrete volume `c4vol`
(cell (0,2) holds 7, which is merged into the first-column label 2),
instantiated at the present value 2. -/

theorem wrap_unifier_semantics_witness :
    cellAt (wrap_x [[2, 0, 7], [0, 0, 0]]) 0 2 = wrapClosedForm [[2, 0, 7], [0, 0, 0]] 0 2
      ∧ searchsortedRank (wrapFrames c4vol) 2 = (sortedVals (wrapFrames c4vol)).indexOf 2
      ∧ searchsortedRank (wrapFrames c4vol) 0 = 0
      ∧ (wrapUnify c4vol).2 = distinctNonzeroCount (wrapUnify c4vol).1 := by
  obtain ⟨ha, hb, hc, hd⟩ := wrap_unifier_semantics c4vol
  exact ⟨ha [[2, 0, 7], [0, 0, 0]] 0 2 (by decide) (by decide), hb 2 (by decide), hc, hd⟩

/-- C5: the Area Filter keeps a label exactly when its whole-volume
pixel count reaches `min_area` (the `min_size_quartile` percentile of
the area table): membership in `keep_labels` is equivalent to
`area ≥ min_area`, a discarded label satisfies `area < min_area`, and
every cell of a label is 1 in the output presence volume when its label
is retained and 0 when it is discarded. -/

theorem area_filter_threshold (V : Volume) (q : ℚ) (w : ℕ) (hw : w ∈ labelsPresent V) :
    (w ∈ keepLabels V q ↔ minAreaQ V q ≤ (areaOf V w : ℚ))
      ∧ (w ∉ keepLabels V q ↔ (areaOf V w : ℚ) < minAreaQ V q)
      ∧ ∀ t i j, cellAt3 V t i j = w →
          cellAt3 (binaryLabels V q) t i j
            = if minAreaQ V q ≤ (areaOf V w : ℚ) then 1 else 0 := by
  have hkeep : w ∈ keepLabels V q ↔ minAreaQ V q ≤ (areaOf V w : ℚ) := by
    rw [keepLabels, List.mem_filter, decide_eq_true_iff]
    exact ⟨fun h => h.2, fun h => ⟨hw, h⟩⟩
  have hwpos : 0 < w := (mem_labelsPresent.1 hw).2
  refine ⟨hkeep, ?_, ?_⟩
  · rw [hkeep]
    exact not_le
  · intro t i j hc
    have hcpos : 0 < cellAt3 V t i j := by rw [hc]; exact hwpos
    obtain ⟨ht, hi, hj⟩ := cellAt3_pos_bounds hcpos
    unfold binaryLabels outLabels
    rw [mapVol_mapVol, cellAt3_mapVol _ ht hi hj, hc]
    show (if (if w ∈ keepLabels V q then w else 0) = 0 then 0 else 1) = _
    by_cases hle : minAreaQ V q ≤ (areaOf V w : ℚ)
    · rw [if_pos hle, if_pos (hkeep.2 hle), if_neg (Nat.pos_iff_ne_zero.1 hwpos)]
    · rw [if_neg hle, if_neg (fun hk => hle (hkeep.1 hk)), if_pos rfl]

/-- C5 witness: the threshold characterization at `V5` (labels 1 and 2,
areas 2 and 1, `min_area` the median 3/2), instantiated at label 1. -/

theorem area_filter_threshold_witness :
    ((1 : ℕ) ∈ keepLabels V5 q5 ↔ minAreaQ V5 q5 ≤ (areaOf V5 1 : ℚ))
      ∧ ((1 : ℕ) ∉ keepLabels V5 q5 ↔ (areaOf V5 1 : ℚ) < minAreaQ V5 q5)
      ∧ ∀ t i j, cellAt3 V5 t i j = 1 →
          cellAt3 (binaryLabels V5 q5) t i j
            = if minAreaQ V5 q5 ≤ (areaOf V5 1 : ℚ) then 1 else 0 :=
  area_filter_threshold V5 q5 1 (by decide)

/-- C6: the Frame Labeler's collision-avoiding shift — each frame's
positive labels gain the cumulative sum of the per-frame maxima of all
strictly earlier frames (frame 0 unshifted) — makes positive labels of
distinct frames distinct; and an entirely empty frame contributes 0 to
the cumulative offset. -/

theorem frame_label_offset_no_collision (V : Volume) (t u i j k l : ℕ)
    (htu : t < u) (h1 : 0 < cellAt3 V t i j) (h2 : 0 < cellAt3 V u k l) :
    shiftedCell V t i j ≠ shiftedCell V u k l
      ∧ ∀ e : ℕ, (∀ a ∈ frameVals (V.getD e []), a = 0) →
          offsetAt V (e + 1) = offsetAt V e := by
  constructor
  · have hu : u < V.length := (cellAt3_pos_bounds h2).1
    have ht : t < V.length := lt_trans htu hu
    have hmax : cellAt3 V t i j ≤ frameMax (V.getD t []) :=
      le_foldr_max (cellAt_mem_frameVals h1)
    have hsucc : offsetAt V (t + 1) = offsetAt V t + frameMax (V.getD t []) :=
      offsetAt_succ V t ht
    have hmono : offsetAt V (t + 1) ≤ offsetAt V u := offsetAt_mono V (t + 1) u htu
    unfold shiftedCell
    rw [if_pos h1, if_pos h2]
    omega
  · intro e he
    by_cases hel : e < V.length
    · have hsucc := offsetAt_succ V e hel
      have hfm : frameMax (V.getD e []) = 0 :=
        Nat.le_antisymm (foldr_max_le (fun a ha => le_of_eq (he a ha))) (Nat.zero_le _)
      omega
    · rw [offsetAt, offsetAt, List.take_of_length_le (Nat.le_of_not_lt hel),
        List.take_of_length_le (le_trans (Nat.le_of_not_lt hel) (Nat.le_succ e))]

/-- C6 witness: the two one-cell frames of `V6`, both locally labeled
1, get the distinct shifted labels 1 and 2. -/

theorem frame_label_offset_no_collision_witness :
    shiftedCell V6 0 0 0 ≠ shiftedCell V6 1 0 0
      ∧ ∀ e : ℕ, (∀ a ∈ frameVals (V6.getD e []), a = 0) →
          offsetAt V6 (e + 1) = offsetAt V6 e :=
  frame_label_offset_no_collision V6 0 1 0 0 0 0 (by decide) (by decide) (by decide)

/-- C7: when the label volume reaching `_filter_area`'s area check has
no positive labels (and in particular when the presence volume is
all-zero, which the frame labeling and wrap unification preserve), the
stage fails with the `ValueError` suggesting parameter adjustment — an
`Except.error`, never a silent `Except.ok`. -/

theorem empty_detection_raises (V : Volume) (q : ℚ) (h : ∀ c ∈ volVals V, c = 0) :
    filter_area V q = Except.error emptyDetectionMsg
      ∧ filter_area (wrapUnify V).1 q = Except.error emptyDetectionMsg := by
  have herr : ∀ (X : Volume), (∀ c ∈ volVals X, c = 0) →
      filter_area X q = Except.error emptyDetectionMsg := by
    intro X hX
    have hnil : areasList X = [] := by
      rw [areasList, labelsPresent_nil_of_all_zero hX]
      rfl
    unfold filter_area
    rw [if_pos hnil]
  refine ⟨herr V h, herr _ ?_⟩
  intro c hc
  have hU : (wrapUnify V).1 = inverse_unique (wrapFrames V) := rfl
  rw [hU, volVals_inverse_unique, wrapFrames_of_all_zero h] at hc
  obtain ⟨x, hx, rfl⟩ := List.mem_map.1 hc
  rw [h x hx, searchsortedRank_zero]

/-- C7 witness: the all-zero presence volume `V7`. -/

theorem empty_detection_raises_witness :
    filter_area V7 (1 / 2) = Except.error emptyDetectionMsg
      ∧ filter_area (wrapUnify V7).1 (1 / 2) = Except.error emptyDetectionMsg :=
  empty_detection_raises V7 (1 / 2) (by decide)

/-- C8: a label whose area equals `min_area` exactly is retained by the
Area Filter (`area >= min_area`), yet its area is summed into the
`percent area reject` numerator (`area <= min_area`) and excluded from
the `percent area accept` numerator (`area > min_area`); and because
`≤` and `>` partition the area table, the two percent attributes sum to
exactly 1. -/

theorem boundary_area_accounting (V : Volume) (q : ℚ) (w : ℕ)
    (hw : w ∈ labelsPresent V) (heq : (areaOf V w : ℚ) = minAreaQ V q) :
    w ∈ keepLabels V q
      ∧ areaOf V w ∈ rejectAreas V q
      ∧ areaOf V w ∉ acceptAreas V q
      ∧ (acceptAreas V q).sum + (rejectAreas V q).sum = sumTotArea V
      ∧ percentAreaAccept V q + percentAreaReject V q = 1 := by
  have hmem : areaOf V w ∈ areasList V := List.mem_map_of_mem (areaOf V) hw
  have hpart : (acceptAreas V q).sum + (rejectAreas V q).sum = sumTotArea V := by
    rw [acceptAreas, rejectAreas, sumTotArea]
    exact sum_filter_gt_add_filter_le (minAreaQ V q) (areasList V)
  refine ⟨?_, ?_, ?_, hpart, ?_⟩
  · rw [keepLabels, List.mem_filter]
    exact ⟨hw, decide_eq_true (le_of_eq heq.symm)⟩
  · rw [rejectAreas, List.mem_filter]
    exact ⟨hmem, decide_eq_true (le_of_eq heq)⟩
  · rw [acceptAreas, List.mem_filter]
    intro hmem2
    have hlt : minAreaQ V q < (areaOf V w : ℚ) := of_decide_eq_true hmem2.2
    rw [heq] at hlt
    exact absurd hlt (lt_irrefl _)
  · have hwv : w ∈ volVals V := (mem_labelsPresent.1 hw).1
    have hcount : 0 < areaOf V w := List.count_pos_iff.2 hwv
    have hsum : areaOf V w ≤ sumTotArea V :=
      List.single_le_sum (fun x _ => Nat.zero_le x) _ hmem
    have htot : ((sumTotArea V : ℕ) : ℚ) ≠ 0 := by
      rw [Nat.cast_ne_zero]
      omega
    rw [percentAreaAccept, percentAreaReject, div_add_div_same, ← Nat.cast_add, hpart]
    exact div_self htot

/-- C8 witness: at `V5` with quantile 0, `min_area = 1` equals the area
of label 2 exactly; label 2 is kept, its area is counted as rejected
and not as accepted, and the percent attributes sum to 1. -/

theorem boundary_area_accounting_witness :
    (2 : ℕ) ∈ keepLabels V5 0
      ∧ areaOf V5 2 ∈ rejectAreas V5 0
      ∧ areaOf V5 2 ∉ acceptAreas V5 0
      ∧ (acceptAreas V5 0).sum + (rejectAreas V5 0).sum = sumTotArea V5
      ∧ percentAreaAccept V5 0 + percentAreaReject V5 0 = 1 :=
  boundary_area_accounting V5 0 2 (by decide) (by
    have h1 : areasList V5 = [2, 1] := by decide
    have h2 : List.insertionSort (· ≤ ·) [2, 1] = [1, 2] := by decide
    have h3 : areaOf V5 2 = 1 := by decide
    rw [h3, minAreaQ, h1, percentileQ]
    simp only [h2]
    norm_num)

/-- C9: the dense relabeling maps each value to its index among the
sorted values present, so on a volume with no zero-valued cell the
smallest (necessarily positive) label is remapped to 0 and its object
becomes the background / missing-data sentinel of the final output. -/

theorem dense_relabel_zero_free (V : Volume) (h0 : 0 ∉ volVals V) (m : ℕ)
    (hm : m ∈ volVals V) (hmin : ∀ c ∈ volVals V, m ≤ c) :
    searchsortedRank V m = 0 ∧ 0 < m ∧ sentinelize (searchsortedRank V m) = none := by
  have hnil : (sortedVals V).filter (fun u => decide (u < m)) = [] := by
    refine List.filter_eq_nil_iff.2 ?_
    intro u hu hdec
    exact absurd (hmin u (mem_sortedVals.1 hu)) (not_le.2 (of_decide_eq_true hdec))
  have hrank : searchsortedRank V m = 0 := by
    rw [searchsortedRank, hnil]
    rfl
  have hpos : 0 < m := Nat.pos_of_ne_zero (fun he => h0 (he ▸ hm))
  refine ⟨hrank, hpos, ?_⟩
  rw [hrank]
  rfl

/-- C9 witness: the zero-free volume `V9`, whose smallest label 3 is
remapped to 0 and sentinelized to missing. -/

theorem dense_relabel_zero_free_witness :
    searchsortedRank V9 3 = 0 ∧ 0 < 3 ∧ sentinelize (searchsortedRank V9 3) = none :=
  dense_relabel_zero_free V9 (by decide) 3 (by decide) (by decide)

/-- C10: a NaN field value is binarized to 0 (absent) under both sign
conventions, since neither `NaN > 0` nor `NaN < 0` holds. -/

theorem binarizer_nan_to_zero : ∀ positive : Bool, binarize positive FloatV.nan = 0 := by
  decide
